import Mathlib

/-!
# Fact gathering in ToDD (`facts/facts.go`)

A shallow embedding of `GetFacts`, `GetFactCollectors` and `ServeFactCollectors`.

* Go maps with string keys are duplicate-free association lists (`GoMap`).
* The file system below `cfg.Facts.CollectorDir` is a tree (`Node`); what is found at the
  directory path itself is an `Option Node` (`none`: nothing exists there).
* A path is the list of components below the collector directory, so that
  `filepath.Join(path, name)` and `fmt.Sprintf("%s/%s", dir, name)` are `path ++ [name]`.
* A run of the process either returns a value or stops with a `Failure`: the fatal exit of
  `common.FailOnError`, or the runtime panic of a method call on a nil `os.FileInfo`.
* The library functions the code calls (`exec.Cmd.Run`, `json.Unmarshal`, SHA-256,
  `assets.Asset`) are parameters of the definitions.
* Every object of the tree is a regular file or a directory, and the process may read and
  write all of them: `Lstat` fails only when nothing exists at the walk's root.
-/

namespace Todd

/-- Byte strings: file contents and captured standard output. -/
abbrev Bytes := List UInt8

/-- The `error` values of Go, by their message. -/
abbrev Error := String

/-! ## Go maps with string keys -/

/-- Assignment `m[k] = v` on the entries of a map: an existing entry is replaced,
a new key is added. -/
def setEntries {V : Type} (k : String) (v : V) : List (String × V) → List (String × V)
  | [] => [(k, v)]
  | (k', v') :: rest => if k' = k then (k, v) :: rest else (k', v') :: setEntries k v rest

/-- A Go `map[string]V`: its entries, no key twice. -/
structure GoMap (V : Type) where
  entries : List (String × V)
  nodup : (entries.map Prod.fst).Nodup

namespace GoMap

variable {V : Type}

/-- The empty map, `make(map[string]V)`. -/
def make : GoMap V := ⟨[], List.nodup_nil⟩

/-- The value under `k`, if any: `v, ok := m[k]`. -/
def get? (m : GoMap V) (k : String) : Option V := m.entries.lookup k

/-- The number of keys, `len(m)`. -/
def len (m : GoMap V) : Nat := m.entries.length

/-- The keys of the map. -/
def keys (m : GoMap V) : List String := m.entries.map Prod.fst

/-- The assignment `m[k] = v`. -/
def set (m : GoMap V) (k : String) (v : V) : GoMap V :=
  ⟨setEntries k v m.entries, by
    have hkeys : ∀ l : List (String × V), (setEntries k v l).map Prod.fst
        = if k ∈ l.map Prod.fst then l.map Prod.fst else l.map Prod.fst ++ [k] := by
      intro l
      induction l with
      | nil => simp [setEntries]
      | cons hd tl ih =>
        obtain ⟨k₀, v₀⟩ := hd
        by_cases h : k₀ = k
        · subst h; simp [setEntries]
        · have hne : ¬ k = k₀ := fun e => h e.symm
          simp only [setEntries, h, if_false, List.map_cons, ih, List.mem_cons, hne, false_or]
          split <;> simp
    rw [hkeys]
    split
    · exact m.nodup
    · rename_i hk
      rw [List.nodup_append]
      refine ⟨m.nodup, List.nodup_singleton k, ?_⟩
      intro a ha hb
      simp only [List.mem_singleton] at hb
      subst hb
      exact hk ha⟩

/-- The assignments of a list of records, in order. -/
def setAll (m : GoMap V) (l : List (String × V)) : GoMap V :=
  l.foldl (fun acc kv => acc.set kv.1 kv.2) m

end GoMap

/-! ## The file system below the collector directory -/

/-- A file system object: a regular file with its bytes, or a directory with its entries
in the lexical order in which `filepath.Walk` reads them. -/
inductive Node where
  | file (content : Bytes)
  | dir (entries : List (String × Node))

/-- A path below the collector directory: the components after it. -/
abbrev Path := List String

/-- What `os.FileInfo` tells the callbacks: `Name()` and `IsDir()`. -/
structure FileInfo where
  name : String
  isDir : Bool

mutual
/-- The objects `filepath.Walk` visits below an object that exists, as long as the walk
function returns nil, each with its path and the `FileInfo` of `Lstat`: the object itself,
then, for a directory, its entries in order. -/
def walk : Node → Path → String → List (Path × FileInfo)
  | .file _, p, nm => [(p, ⟨nm, false⟩)]
  | .dir es, p, nm => (p, ⟨nm, true⟩) :: walkEntries es p
/-- The objects visited for the entries of the directory at path `p`. -/
def walkEntries : List (String × Node) → Path → List (Path × FileInfo)
  | [], _ => []
  | (n, c) :: rest, p => walk c (p ++ [n]) n ++ walkEntries rest p
end

/-! ## Failures, configuration and the library calls -/

/-- How a run stops without returning. -/
inductive Failure where
  /-- The process exit of `common.FailOnError` on a non-nil error. -/
  | fatal (msg : String) (err : Error)
  /-- The runtime panic of calling a method on a nil `os.FileInfo`. -/
  | nilDeref
  deriving DecidableEq

/-- Modelled from the spec: `common.FailOnError` is not in the source file; on a non-nil
error the operation "fails fatally (process-terminating in the reference behavior)",
on a nil error it does nothing. -/
def FailOnError (err : Option Error) (msg : String) : Except Failure Unit :=
  match err with
  | some e => .error (.fatal msg e)
  | none => .ok ()

/-- The fields of `config.Config` the code reads: `cfg.Facts.CollectorDir`, `cfg.Facts.Port`. -/
structure Config where
  CollectorDir : String
  Port : String

/-- The last element of a path string, as `filepath.Base` gives it: the name `Lstat`
reports for the root of a walk. -/
def Base (path : String) : String :=
  if path.data = [] then "."
  else
    let t := path.data.reverse.dropWhile (fun c => c = '/')
    let b := (t.takeWhile (fun c => c ≠ '/')).reverse
    if b = [] then "/" else String.mk b

/-- What `cmd.Run()` leaves behind: the process could not be started, and nothing was
written to the `Stdout` buffer, or it ran, exited with a status and wrote `stdout`. -/
inductive RunResult where
  | startFailed
  | exited (status : Nat) (stdout : Bytes)

/-- The content of the buffer attached to `cmd.Stdout` after `cmd.Run()`:
`cmdOutput.Bytes()`. The error `cmd.Run()` returns is dropped by the code. -/
def RunResult.cmdOutput : RunResult → Bytes
  | .startFailed => []
  | .exited _ out => out

/-- The object at a path below `node`, if there is one. -/
def resolve : Node → Path → Option Node
  | node, [] => some node
  | .file _, _ :: _ => none
  | .dir es, n :: rest =>
    match es.lookup n with
    | some c => resolve c rest
    | none => none

/-- Modelled from the spec: `common.GetFileSHA256` is not in the source file; it "computes
a deterministic content digest for a file" over "the full file contents" and fails with an
IO error, fatal in the reference behaviour, "if the file cannot be read". The hash function
itself is the parameter `digest`. -/
def GetFileSHA256 (digest : Bytes → String) (fs : Option Node) (path : Path) :
    Except Failure String :=
  match fs.bind (fun root => resolve root path) with
  | some (.file content) => .ok (digest content)
  | _ => .error (.fatal "GetFileSHA256" "cannot read file")

/-- The call `os.MkdirAll(cfg.Facts.CollectorDir, 0777)`: nothing to do for a directory,
an error when a file is in the way, a new empty directory otherwise. -/
def MkdirAll : Option Node → Except Error (Option Node)
  | none => .ok (some (.dir []))
  | some (.dir es) => .ok (some (.dir es))
  | some (.file _) => .error "mkdir: not a directory"

/-- The lexical order of names, character by character: the order in which `filepath.Walk`
sorts the names of a directory. -/
def nameLt : List Char → List Char → Bool
  | _, [] => false
  | [], _ :: _ => true
  | a :: as, b :: bs =>
    if a.toNat < b.toNat then true
    else if b.toNat < a.toNat then false
    else nameLt as bs

/-- A new entry of a directory, at its place in the lexical order. -/
def insertEntry (name : String) (node : Node) : List (String × Node) → List (String × Node)
  | [] => [(name, node)]
  | (n, c) :: rest =>
    if nameLt name.data n.data then (name, node) :: (n, c) :: rest
    else (n, c) :: insertEntry name node rest

/-- The entry `name` of a directory replaced where it stands. -/
def replaceEntry (name : String) (node : Node) : List (String × Node) → List (String × Node)
  | [] => []
  | (n, c) :: rest =>
    if n = name then (name, node) :: rest else (n, c) :: replaceEntry name node rest

/-- The call `ioutil.WriteFile(dir + "/" + name, data, 0744)` for a file directly inside
the collector directory: an existing file is truncated and rewritten, a missing one is
created, and a directory of that name or a missing collector directory is an error. -/
def WriteFile (fs : Option Node) (name : String) (data : Bytes) : Except Error (Option Node) :=
  match fs with
  | some (.dir es) =>
    match es.lookup name with
    | some (.dir _) => .error "open: is a directory"
    | some (.file _) => .ok (some (.dir (replaceEntry name (.file data) es)))
    | none => .ok (some (.dir (insertEntry name (.file data) es)))
  | _ => .error "open: no such file or directory"

/-- A walk function with the state its closure captures: `fn(path, info, err)` returns an
error value, or panics. -/
abbrev WalkFunc (σ : Type) := Path → Option FileInfo → Option Error → σ → Except Failure (σ × Option Error)

/-- The walk function called on the visited objects in turn, as `fn(path, info, nil)`; the
first error it returns ends the walk and is what `filepath.Walk` returns. -/
def walkCalls {σ : Type} (fn : WalkFunc σ) :
    List (Path × FileInfo) → σ → Except Failure (σ × Option Error)
  | [], s => .ok (s, none)
  | e :: rest, s =>
    match fn e.1 (some e.2) none s with
    | .error x => .error x
    | .ok (s', some err) => .ok (s', some err)
    | .ok (s', none) => walkCalls fn rest s'

/-- The call `filepath.Walk(cfg.Facts.CollectorDir, fn)`: when `Lstat` of the root fails the
walk function is called once, with a nil `FileInfo` and the error; otherwise it is called
on the tree below the root. -/
def Walk {σ : Type} (cfg : Config) (fs : Option Node) (fn : WalkFunc σ) (s : σ) :
    Except Failure (σ × Option Error) :=
  match fs with
  | none => fn [] none (some "lstat: no such file or directory") s
  | some node => walkCalls fn (walk node [] (Base cfg.CollectorDir)) s

/-! ## The three operations of `facts.go` -/

/-- The method call `f.IsDir()` on the `os.FileInfo` a walk function receives. -/
def IsDir (f : Option FileInfo) : Except Failure Bool :=
  match f with
  | none => .error .nilDeref
  | some info => .ok info.isDir

/-- The method call `f.Name()`. -/
def Name (f : Option FileInfo) : Except Failure String :=
  match f with
  | none => .error .nilDeref
  | some info => .ok info.name

/-- The closure `execute_collector` of `GetFacts`; the state is `retFactSet`.
`run` is the outcome of executing the program at a path. `unmarshal` is the call
`json.Unmarshal(cmdOutput.Bytes(), &fact)` on the fresh map `fact`: what `fact` holds after
the call, and the error the call returns. The two are independent, since `json.Unmarshal`
can store keys and still return an error. The error is assigned to `err` and never read. -/
def execute_collector {V : Type} (run : Path → RunResult)
    (unmarshal : Bytes → GoMap V × Option Error) : WalkFunc (GoMap V) :=
  fun path f _err retFactSet =>
    match IsDir f with
    | .error x => .error x
    | .ok isDir =>
      if isDir != true then
        let cmdOutput := (run path).cmdOutput
        let fact : GoMap V := (unmarshal cmdOutput).1
        if fact.len == 1 then
          .ok (fact.entries.foldl (fun acc kv => acc.set kv.1 kv.2) retFactSet, none)
        else .ok (retFactSet, none)
      else .ok (retFactSet, none)

/-- The function `GetFacts`. -/
def GetFacts {V : Type} (run : Path → RunResult) (unmarshal : Bytes → GoMap V × Option Error)
    (cfg : Config) (fs : Option Node) : Except Failure (GoMap V) :=
  match Walk cfg fs (execute_collector run unmarshal) GoMap.make with
  | .error x => .error x
  | .ok (retFactSet, err) =>
    match FailOnError err "Problem running fact-gathering collector" with
    | .error x => .error x
    | .ok () => .ok retFactSet

/-- The closure `discover_collector` of `GetFactCollectors`; the state is `collectors`. -/
def discover_collector (digest : Bytes → String) (fs : Option Node) : WalkFunc (GoMap String) :=
  fun path f _err collectors =>
    match IsDir f with
    | .error x => .error x
    | .ok isDir =>
      if isDir != true then
        match Name f, GetFileSHA256 digest fs path with
        | .error x, _ => .error x
        | .ok _, .error x => .error x
        | .ok name, .ok hash => .ok (collectors.set name hash, none)
      else .ok (collectors, none)

/-- The function `GetFactCollectors`: the manifest, and the directory as it is left. -/
def GetFactCollectors (digest : Bytes → String) (cfg : Config) (fs : Option Node) :
    Except Failure (GoMap String × Option Node) :=
  match MkdirAll fs with
  | .error e => .error (.fatal "Problem creating fact collector directory" e)
  | .ok fs' =>
    match Walk cfg fs' (discover_collector digest fs') GoMap.make with
    | .error x => .error x
    | .ok (collectors, err) =>
      match FailOnError err "error" with
      | .error x => .error x
      | .ok () => .ok (collectors, fs')

/-- The body of the loop of `ServeFactCollectors` for one name of `collector_map`. -/
def serveCollector (Asset : String → Except Error Bytes) (digest : Bytes → String)
    (st : GoMap String × Option Node) (name : String) :
    Except Failure (GoMap String × Option Node) :=
  match Asset ("facts/collectors/" ++ name) with
  | .error e => .error (.fatal "Error retrieving collector from embedded source" e)
  | .ok data =>
    match WriteFile st.2 name data with
    | .error e => .error (.fatal "Error writing collector file" e)
    | .ok fs' =>
      match GetFileSHA256 digest fs' [name] with
      | .error x => .error x
      | .ok hash => .ok (st.1.set name hash, fs')

/-- The loop `for name, _ := range collector_map` over the names in the order the Go
runtime yields them. -/
def serveLoop (Asset : String → Except Error Bytes) (digest : Bytes → String) :
    List String → GoMap String × Option Node → Except Failure (GoMap String × Option Node)
  | [], st => .ok st
  | name :: rest, st =>
    match serveCollector Asset digest st name with
    | .error x => .error x
    | .ok st' => serveLoop Asset digest rest st'

/-- The function `ServeFactCollectors`, up to the start of the file server: the manifest and
the directory as it is left. `order` is the order in which `range collector_map` yields
the keys, which Go leaves open. -/
def ServeFactCollectors (Asset : String → Except Error Bytes) (digest : Bytes → String)
    (order : List String) (fs : Option Node) : Except Failure (GoMap String × Option Node) :=
  let collector_map : GoMap String := (GoMap.make.set "get_interfaces" "").set "get_hostname" ""
  match MkdirAll fs with
  | .error e => .error (.fatal "Problem creating fact collector directory" e)
  | .ok fs' => serveLoop Asset digest order (collector_map, fs')

/-- The canonical collector names: the keys `ServeFactCollectors` puts into `collector_map`. -/
def collectorNames : List String := ["get_interfaces", "get_hostname"]

/-- The file `name` holds the bundled bytes and the manifest has their digest. -/
def Served (Asset : String → Except Error Bytes) (digest : Bytes → String)
    (st : GoMap String × Option Node) (name : String) : Prop :=
  ∃ data es, Asset ("facts/collectors/" ++ name) = .ok data ∧ st.2 = some (.dir es)
    ∧ es.lookup name = some (.file data) ∧ st.1.get? name = some (digest data)

/-! ## What the specification says of the aggregate -/

/-- The record a visited object contributes, in the words of the specification: a collector
is an entry that is not a directory, and its output counts when parsing does not fail and
the record has exactly one key. -/
def validRecord {V : Type} (run : Path → RunResult)
    (unmarshal : Bytes → GoMap V × Option Error) (e : Path × FileInfo) : Option (String × V) :=
  if e.2.isDir then none
  else
    match unmarshal (run e.1).cmdOutput with
    | (fact, none) =>
      match fact.entries with
      | [kv] => some kv
      | _ => none
    | (_, some _) => none

/-- The valid single-key records of the collectors below `node`, in execution order. -/
def validRecords {V : Type} (run : Path → RunResult)
    (unmarshal : Bytes → GoMap V × Option Error) (cfg : Config) (node : Node) :
    List (String × V) :=
  (walk node [] (Base cfg.CollectorDir)).filterMap (validRecord run unmarshal)

/-- The record a visited object contributes when the error of `json.Unmarshal` is left out
of account: an entry that is not a directory counts when its output leaves exactly one key
in `fact`. -/
def storedRecord {V : Type} (run : Path → RunResult)
    (unmarshal : Bytes → GoMap V × Option Error) (e : Path × FileInfo) : Option (String × V) :=
  if e.2.isDir then none
  else
    match (unmarshal (run e.1).cmdOutput).1.entries with
    | [kv] => some kv
    | _ => none

/-- The one-key contents of `fact` for the collectors below `node`, in execution order. -/
def storedRecords {V : Type} (run : Path → RunResult)
    (unmarshal : Bytes → GoMap V × Option Error) (cfg : Config) (node : Node) :
    List (String × V) :=
  (walk node [] (Base cfg.CollectorDir)).filterMap (storedRecord run unmarshal)

/-! ## What a walk of the whole tree finds -/

mutual
/-- The regular files at any depth at or below an object, each with its base name and its
bytes, in the order of the walk. -/
def regularFiles : Node → String → List (String × Bytes)
  | .file content, nm => [(nm, content)]
  | .dir es, _ => regularFilesIn es
/-- The regular files at any depth below a directory with the given entries. -/
def regularFilesIn : List (String × Node) → List (String × Bytes)
  | [] => []
  | (n, c) :: rest => regularFiles c n ++ regularFilesIn rest
end

mutual
/-- No directory of the tree lists a name twice. -/
def Node.distinctNames : Node → Bool
  | .file _ => true
  | .dir es => decide (es.map Prod.fst).Nodup && distinctNamesIn es
/-- No directory below the given entries lists a name twice. -/
def distinctNamesIn : List (String × Node) → Bool
  | [] => true
  | (_, c) :: rest => c.distinctNames && distinctNamesIn rest
end

/-- Whether an object is a regular file. -/
def Node.isFile : Node → Bool
  | .file _ => true
  | .dir _ => false

/-- The flat layout of the specification: a directory that holds only files, each name
once. -/
def flatLayout (es : List (String × Node)) : Prop :=
  (es.map Prod.fst).Nodup ∧ ∀ e ∈ es, e.2.isFile = true

/-! ## Sample inputs -/

/-- The values `json.Unmarshal` stores in an `interface{}`. -/
inductive JVal where
  | null
  | bool (b : Bool)
  | num (n : Int)
  | str (s : String)
  | arr (items : List JVal)
  | obj (fields : List (String × JVal))

/-- The bytes of an ASCII string. -/
def bytesOf (s : String) : Bytes := s.data.map (fun c => c.toNat.toUInt8)

/-- A one-key map. -/
def GoMap.single {V : Type} (k : String) (v : V) : GoMap V := GoMap.make.set k v

/-- A decoder that knows the outputs used as samples below and rejects every other input,
the empty one included, storing nothing. For the object with the member `"n":1e400` it does
what `json.Unmarshal` does with a number that does not fit a `float64`: the key is stored
with a nil value and an error is returned. -/
def sampleUnmarshal (out : Bytes) : GoMap JVal × Option Error :=
  if out = bytesOf "\x7b\"hostname\":\"node1\"\x7d" then
    (GoMap.single "hostname" (.str "node1"), none)
  else if out = bytesOf "\x7b\"hostname\": \"x\"\x7d" then
    (GoMap.single "hostname" (.str "x"), none)
  else if out = bytesOf "\x7b\"interfaces\":[\"eth0\"]\x7d" then
    (GoMap.single "interfaces" (.arr [.str "eth0"]), none)
  else if out = bytesOf "\x7b\x7d" then (GoMap.make, none)
  else if out = bytesOf "\x7b\"a\":1,\"b\":2\x7d" then
    ((GoMap.single "a" (.num 1)).set "b" (.num 2), none)
  else if out = bytesOf "\x7b\"n\":1e400\x7d" then
    (GoMap.single "n" .null,
      some "json: cannot unmarshal number 1e400 into Go value of type float64")
  else (GoMap.make, some "invalid character")

/-- Collectors for the samples: `get_hostname` and `get_interfaces` succeed, `broken` exits
with status 1 after printing a record, `garbage` prints `not json`, `overflow` prints an
object whose number does not fit a `float64`, `missing` cannot be started. -/
def sampleRun (path : Path) : RunResult :=
  if path = ["get_hostname"] then .exited 0 (bytesOf "\x7b\"hostname\":\"node1\"\x7d")
  else if path = ["get_interfaces"] then .exited 0 (bytesOf "\x7b\"interfaces\":[\"eth0\"]\x7d")
  else if path = ["broken"] then .exited 1 (bytesOf "\x7b\"hostname\": \"x\"\x7d")
  else if path = ["garbage"] then .exited 0 (bytesOf "not json")
  else if path = ["overflow"] then .exited 0 (bytesOf "\x7b\"n\":1e400\x7d")
  else .startFailed

/-- A stand-in for SHA-256 in the samples: the bytes written out as characters. -/
def sampleDigest (b : Bytes) : String := String.mk (b.map (fun x => Char.ofNat x.toNat))

/-- A sample asset bundle with the two canonical collectors and nothing else. -/
def sampleAsset (name : String) : Except Error Bytes :=
  if name = "facts/collectors/get_interfaces" then .ok (bytesOf "#!/bin/sh ip link")
  else if name = "facts/collectors/get_hostname" then .ok (bytesOf "#!/bin/sh hostname")
  else .error "Asset not found"

/-- A collector directory with a tampered copy of `get_hostname` and a foreign file. -/
def tamperedDir : Option Node :=
  some (.dir [("get_hostname", .file (bytesOf "rm -rf /")), ("zz_extra", .file (bytesOf "x"))])

/-- The directory `tamperedDir` after the publisher has run. -/
def repairedDir : Option Node :=
  some (.dir [("get_hostname", .file (bytesOf "#!/bin/sh hostname")),
    ("get_interfaces", .file (bytesOf "#!/bin/sh ip link")), ("zz_extra", .file (bytesOf "x"))])

/-- The manifest of the sample asset bundle. -/
def sampleManifest : GoMap String :=
  (GoMap.single "get_interfaces" (sampleDigest (bytesOf "#!/bin/sh ip link"))).set
    "get_hostname" (sampleDigest (bytesOf "#!/bin/sh hostname"))

/-- A collector directory with a collector, and a subdirectory `tmp` that holds two files,
one of them named `tmp` as well. -/
def nestedDir : Option Node :=
  some (.dir [("get_hostname", .file (bytesOf "h")),
    ("tmp", .dir [("scratch", .file (bytesOf "s")), ("tmp", .file (bytesOf "t"))])])

/-- A sample configuration. -/
def sampleCfg : Config := ⟨"/opt/todd/agent/assets/factcollectors", "8090"⟩

/-! ## Lemmas on Go maps -/

theorem keys_setEntries {V : Type} (k : String) (v : V) (l : List (String × V)) :
    (setEntries k v l).map Prod.fst
      = if k ∈ l.map Prod.fst then l.map Prod.fst else l.map Prod.fst ++ [k] := by
  induction l with
  | nil => simp [setEntries]
  | cons hd tl ih =>
    obtain ⟨k', v'⟩ := hd
    by_cases h : k' = k
    · subst h; simp [setEntries]
    · have h' : ¬ k = k' := fun e => h e.symm
      simp only [setEntries, h, if_false, List.map_cons, ih, List.mem_cons, h', false_or]
      split <;> simp

theorem lookup_setEntries_self {V : Type} (k : String) (v : V) (l : List (String × V)) :
    (setEntries k v l).lookup k = some v := by
  induction l with
  | nil => simp [setEntries, List.lookup]
  | cons hd tl ih =>
    obtain ⟨k', v'⟩ := hd
    by_cases h : k' = k
    · simp [setEntries, h, List.lookup]
    · have h' : (k == k') = false := by simpa using fun e : k = k' => h e.symm
      simp [setEntries, h, List.lookup, h', ih]

theorem lookup_setEntries_ne {V : Type} (k k' : String) (v : V) (l : List (String × V))
    (hne : k' ≠ k) : (setEntries k v l).lookup k' = l.lookup k' := by
  induction l with
  | nil =>
    have h' : (k' == k) = false := by simpa using hne
    simp [setEntries, List.lookup, h']
  | cons hd tl ih =>
    obtain ⟨k₀, v₀⟩ := hd
    by_cases h : k₀ = k
    · subst h
      have h' : (k' == k₀) = false := by simpa using hne
      simp [setEntries, List.lookup, h']
    · simp only [setEntries, h, if_false, List.lookup, ih]

theorem lookup_eq_some_iff_mem {V : Type} (k : String) (l : List (String × V)) :
    (∃ v, l.lookup k = some v) ↔ ∃ v, (k, v) ∈ l := by
  induction l with
  | nil => simp [List.lookup]
  | cons hd tl ih =>
    obtain ⟨k₀, v₀⟩ := hd
    by_cases h : k = k₀
    · subst h
      simp only [List.lookup, beq_self_eq_true, List.mem_cons]
      exact ⟨fun _ => ⟨v₀, Or.inl rfl⟩, fun _ => ⟨v₀, rfl⟩⟩
    · have h' : (k == k₀) = false := by simpa using h
      simp [List.lookup, h', h, ih]

namespace GoMap

variable {V : Type}

theorem ext_entries {m₁ m₂ : GoMap V} (h : m₁.entries = m₂.entries) : m₁ = m₂ := by
  cases m₁; cases m₂; cases h; rfl

theorem get?_make (k : String) : (make : GoMap V).get? k = none := rfl

theorem get?_set_self (m : GoMap V) (k : String) (v : V) : (m.set k v).get? k = some v :=
  lookup_setEntries_self k v m.entries

theorem get?_set_ne (m : GoMap V) (k k' : String) (v : V) (hne : k' ≠ k) :
    (m.set k v).get? k' = m.get? k' :=
  lookup_setEntries_ne k k' v m.entries hne

theorem get?_set (m : GoMap V) (k k' : String) (v : V) :
    (m.set k v).get? k' = if k' = k then some v else m.get? k' := by
  by_cases h : k' = k
  · subst h; simp [get?_set_self]
  · simp [h, get?_set_ne]

theorem mem_keys_iff (m : GoMap V) (k : String) : k ∈ m.keys ↔ ∃ v, m.get? k = some v := by
  obtain ⟨l, hl⟩ := m
  simp only [keys, get?]
  clear hl
  induction l with
  | nil => simp [List.lookup]
  | cons hd tl ih =>
    obtain ⟨k₀, v₀⟩ := hd
    by_cases h : k = k₀
    · subst h; simp [List.lookup]
    · have h' : (k == k₀) = false := by simpa using h
      simp [List.lookup, h', h, ih]

theorem get?_setAll (m : GoMap V) (l : List (String × V)) (k : String) :
    (m.setAll l).get? k = (l.reverse.lookup k).orElse (fun _ => m.get? k) := by
  induction l using List.reverseRecOn with
  | nil => simp [setAll, List.lookup]
  | append_singleton l a ih =>
    obtain ⟨k₀, v₀⟩ := a
    have hstep : m.setAll (l ++ [(k₀, v₀)]) = (m.setAll l).set k₀ v₀ := by
      simp [setAll, List.foldl_append]
    rw [hstep, get?_set, List.reverse_append]
    by_cases h : k = k₀
    · subst h; simp [List.lookup]
    · have h' : (k == k₀) = false := by simpa using h
      simp [List.lookup, h, h', ih]

end GoMap

/-! ## `GetFacts`: one collector -/

/-- What `execute_collector` does with a collector, from the map `json.Unmarshal` leaves:
one key is merged, anything else is dropped, and nil is returned. -/
theorem execute_collector_file {V : Type} (run : Path → RunResult)
    (unmarshal : Bytes → GoMap V × Option Error) (path : Path) (info : FileInfo)
    (err : Option Error) (retFactSet : GoMap V) (hfile : info.isDir = false) :
    execute_collector run unmarshal path (some info) err retFactSet
      = .ok (match (unmarshal (run path).cmdOutput).1.entries with
          | [kv] => retFactSet.set kv.1 kv.2
          | _ => retFactSet, none) := by
  simp only [execute_collector, IsDir, hfile, GoMap.len]
  generalize (unmarshal (run path).cmdOutput).1 = fact
  obtain ⟨entries, hn⟩ := fact
  match entries with
  | [] => simp
  | [kv] => simp
  | a :: b :: tl => simp

/-- Claim C1. A collector (a walk entry that is not a directory) whose captured standard output
decodes to an object with the single key `k` and value `v`: the walk function returns nil
and leaves the fact set with `v` under `k`, whatever was there, and every other key as it
was. -/
theorem execute_collector_single_key {V : Type} (run : Path → RunResult)
    (unmarshal : Bytes → GoMap V × Option Error) (path : Path) (info : FileInfo)
    (err : Option Error) (retFactSet fact : GoMap V) (k : String) (v : V)
    (hfile : info.isDir = false)
    (hparse : unmarshal (run path).cmdOutput = (fact, none))
    (hone : fact.entries = [(k, v)]) :
    ∃ facts, execute_collector run unmarshal path (some info) err retFactSet = .ok (facts, none)
      ∧ facts.get? k = some v
      ∧ ∀ k', k' ≠ k → facts.get? k' = retFactSet.get? k' := by
  refine ⟨retFactSet.set k v, ?_, GoMap.get?_set_self _ _ _, fun k' h => GoMap.get?_set_ne _ _ _ _ h⟩
  simp [execute_collector, IsDir, hfile, hparse, GoMap.len, hone]

/-- The sample collector `get_hostname` adds exactly `hostname -> "node1"` to a fact set
that held another value for `hostname` and a value for `os`. -/
theorem execute_collector_single_key_witness :
    ∃ facts, execute_collector sampleRun sampleUnmarshal ["get_hostname"]
        (some ⟨"get_hostname", false⟩) none
        ((GoMap.single "hostname" (JVal.str "old")).set "os" (JVal.str "linux")) = .ok (facts, none)
      ∧ facts.get? "hostname" = some (JVal.str "node1")
      ∧ ∀ k', k' ≠ "hostname" → facts.get? k' =
          ((GoMap.single "hostname" (JVal.str "old")).set "os" (JVal.str "linux")).get? k' :=
  execute_collector_single_key sampleRun sampleUnmarshal ["get_hostname"]
    ⟨"get_hostname", false⟩ none _ (GoMap.single "hostname" (JVal.str "node1")) "hostname"
    (JVal.str "node1") rfl rfl rfl

/-- Claim C2, as the code has it. A walk entry after whose `json.Unmarshal` call the map
`fact` holds no key, or two or more keys, whether or not the call returned an error: the
walk function returns the fact set it was given and a nil error, and the walk goes on with
the remaining entries. -/
theorem execute_collector_discards {V : Type} (run : Path → RunResult)
    (unmarshal : Bytes → GoMap V × Option Error) (path : Path) (info : FileInfo)
    (err : Option Error) (retFactSet : GoMap V) (rest : List (Path × FileInfo))
    (hbad : (unmarshal (run path).cmdOutput).1.len = 0
      ∨ 2 ≤ (unmarshal (run path).cmdOutput).1.len) :
    execute_collector run unmarshal path (some info) err retFactSet = .ok (retFactSet, none)
      ∧ walkCalls (execute_collector run unmarshal) ((path, info) :: rest) retFactSet
          = walkCalls (execute_collector run unmarshal) rest retFactSet := by
  have hlen : (unmarshal (run path).cmdOutput).1.len ≠ 1 := by omega
  have h1 : execute_collector run unmarshal path (some info) none retFactSet
      = .ok (retFactSet, none) := by
    simp [execute_collector, IsDir, hlen]
  refine ⟨?_, ?_⟩
  · simpa [execute_collector] using h1
  · simp [walkCalls, h1]

/-- The sample collector `garbage` prints `not json`, for which the decoder returns an error
and stores nothing: the fact set is as before and the walk goes on to `get_hostname`. -/
theorem execute_collector_discards_witness :
    execute_collector sampleRun sampleUnmarshal ["garbage"] (some ⟨"garbage", false⟩) none
        (GoMap.single "os" (JVal.str "linux")) = .ok (GoMap.single "os" (JVal.str "linux"), none)
      ∧ walkCalls (execute_collector sampleRun sampleUnmarshal)
          [(["garbage"], ⟨"garbage", false⟩), (["get_hostname"], ⟨"get_hostname", false⟩)]
          (GoMap.single "os" (JVal.str "linux"))
          = walkCalls (execute_collector sampleRun sampleUnmarshal)
              [(["get_hostname"], ⟨"get_hostname", false⟩)] (GoMap.single "os" (JVal.str "linux")) :=
  execute_collector_discards sampleRun sampleUnmarshal ["garbage"] ⟨"garbage", false⟩ none
    (GoMap.single "os" (JVal.str "linux")) [(["get_hostname"], ⟨"get_hostname", false⟩)]
    (Or.inl rfl)

/-- Claim C2 fails as stated. The output of the sample collector `overflow` fails to parse:
the decoder returns an error. It has stored the key `n` before, and the fact `n` is added
to the empty fact set. -/
theorem execute_collector_merges_failed_parse :
    (sampleUnmarshal (sampleRun ["overflow"]).cmdOutput).2
        = some "json: cannot unmarshal number 1e400 into Go value of type float64"
      ∧ (execute_collector sampleRun sampleUnmarshal ["overflow"] (some ⟨"overflow", false⟩) none
          GoMap.make).map (fun r => (r.1.entries, r.2))
        = .ok ([("n", JVal.null)], none) :=
  ⟨rfl, rfl⟩

/-- Claim C7, as the code has it. The error of `cmd.Run()` is never read. A collector that
cannot be started leaves an empty buffer, in which `json.Unmarshal` finds no key, so it
adds no fact. A collector that ran and exited with any status is treated as one that exited
with status 0 and the same output: when `json.Unmarshal` leaves exactly one key in `fact`
that key is merged, otherwise the fact set stays as it was. In both cases the walk function
returns a nil error, so the walk goes on. -/
theorem execute_collector_exit_status {V : Type} (run : Path → RunResult)
    (unmarshal : Bytes → GoMap V × Option Error) (failed ran : Path)
    (infoFailed infoRan : FileInfo) (err : Option Error) (retFactSet : GoMap V)
    (status : Nat) (out : Bytes)
    (hfile : infoRan.isDir = false)
    (hfailed : run failed = .startFailed)
    (hran : run ran = .exited status out)
    (hempty : (unmarshal []).1.len = 0) :
    execute_collector run unmarshal failed (some infoFailed) err retFactSet
        = .ok (retFactSet, none)
      ∧ execute_collector run unmarshal ran (some infoRan) err retFactSet
        = .ok (match (unmarshal out).1.entries with
            | [kv] => retFactSet.set kv.1 kv.2
            | _ => retFactSet, none)
      ∧ execute_collector run unmarshal ran (some infoRan) err retFactSet
        = execute_collector (fun _ => .exited 0 out) unmarshal ran (some infoRan) err
            retFactSet := by
  refine ⟨?_, ?_, ?_⟩
  · simp [execute_collector, IsDir, hfailed, RunResult.cmdOutput, hempty]
  · rw [execute_collector_file run unmarshal ran infoRan err retFactSet hfile, hran]
    rfl
  · simp [execute_collector, hran, RunResult.cmdOutput]

/-- The sample collector `missing` cannot be started and adds nothing; the sample collector
`broken` exits with status 1 after printing a one-key record, and `hostname -> "x"` is
merged into the fact set, as it is for the same output and status 0. -/
theorem execute_collector_exit_status_witness :
    execute_collector sampleRun sampleUnmarshal ["missing"] (some ⟨"missing", false⟩) none
        (GoMap.single "os" (JVal.str "linux")) = .ok (GoMap.single "os" (JVal.str "linux"), none)
      ∧ execute_collector sampleRun sampleUnmarshal ["broken"] (some ⟨"broken", false⟩) none
          (GoMap.single "os" (JVal.str "linux"))
        = .ok ((GoMap.single "os" (JVal.str "linux")).set "hostname" (JVal.str "x"), none)
      ∧ execute_collector sampleRun sampleUnmarshal ["broken"] (some ⟨"broken", false⟩) none
          (GoMap.single "os" (JVal.str "linux"))
        = execute_collector (fun _ => .exited 0 (bytesOf "\x7b\"hostname\": \"x\"\x7d"))
            sampleUnmarshal ["broken"] (some ⟨"broken", false⟩) none
            (GoMap.single "os" (JVal.str "linux")) :=
  execute_collector_exit_status sampleRun sampleUnmarshal ["missing"] ["broken"]
    ⟨"missing", false⟩ ⟨"broken", false⟩ none (GoMap.single "os" (JVal.str "linux")) 1
    (bytesOf "\x7b\"hostname\": \"x\"\x7d") rfl rfl rfl rfl

/-- Claim C7 fails as stated. The sample collector `broken` exits with status 1 after printing
a one-key record, and its fact is added to the empty fact set. -/
theorem execute_collector_nonzero_exit_adds_fact :
    sampleRun ["broken"] = .exited 1 (bytesOf "\x7b\"hostname\": \"x\"\x7d")
      ∧ (execute_collector sampleRun sampleUnmarshal ["broken"] (some ⟨"broken", false⟩) none
          GoMap.make).map (fun r => (r.1.entries, r.2))
        = .ok ([("hostname", JVal.str "x")], none) :=
  ⟨rfl, rfl⟩

/-- Claim C10 fails on the code. When nothing exists at the collector directory, `filepath.Walk`
calls the walk function with a nil `FileInfo`, `f.IsDir()` panics, and `GetFacts` ends in
that panic: it neither returns a fact set nor reaches `FailOnError`. -/
theorem GetFacts_missing_directory_panics {V : Type} (run : Path → RunResult)
    (unmarshal : Bytes → GoMap V × Option Error) (cfg : Config) (path : Path)
    (err : Option Error) (retFactSet : GoMap V) :
    execute_collector run unmarshal path none err retFactSet = .error .nilDeref
      ∧ GetFacts run unmarshal cfg none = .error .nilDeref :=
  ⟨rfl, rfl⟩

/-! ## `GetFacts`: the whole walk -/

theorem execute_collector_eq_stored {V : Type} (run : Path → RunResult)
    (unmarshal : Bytes → GoMap V × Option Error) (e : Path × FileInfo) (s : GoMap V) :
    execute_collector run unmarshal e.1 (some e.2) none s
      = .ok (s.setAll (storedRecord run unmarshal e).toList, none) := by
  obtain ⟨p, info⟩ := e
  simp only [execute_collector, IsDir, storedRecord]
  cases hd : info.isDir
  · simp only [GoMap.len]
    generalize (unmarshal (run p).cmdOutput).1 = fact
    obtain ⟨entries, hn⟩ := fact
    match entries with
    | [] => simp [GoMap.setAll]
    | [kv] => simp [GoMap.setAll]
    | a :: b :: tl => simp [GoMap.setAll]
  · simp [GoMap.setAll]

theorem walkCalls_execute_collector {V : Type} (run : Path → RunResult)
    (unmarshal : Bytes → GoMap V × Option Error) (evs : List (Path × FileInfo)) (s : GoMap V) :
    walkCalls (execute_collector run unmarshal) evs s
      = .ok (s.setAll (evs.filterMap (storedRecord run unmarshal)), none) := by
  induction evs generalizing s with
  | nil => rfl
  | cons e rest ih =>
    simp only [walkCalls, execute_collector_eq_stored, ih]
    cases h : storedRecord run unmarshal e <;>
      simp [List.filterMap_cons, h, GoMap.setAll]

/-- Claim C3, as the code has it. On a collector directory that exists, `GetFacts` returns a
fact set that has a name `k` exactly when the output of some collector left `fact` with the
single key `k`, whether or not `json.Unmarshal` returned an error for it, and holds under
`k` the value stored for the last such collector in execution order (the first one found
from the end of the list of records); and the sample directory with `get_hostname` and
`get_interfaces` gives the two facts `hostname` and `interfaces` and nothing else. -/
theorem GetFacts_last_write_wins {V : Type} (run : Path → RunResult)
    (unmarshal : Bytes → GoMap V × Option Error) (cfg : Config) (node : Node) :
    (∃ facts, GetFacts run unmarshal cfg (some node) = .ok facts
      ∧ (∀ k, k ∈ facts.keys ↔ ∃ v, (k, v) ∈ storedRecords run unmarshal cfg node)
      ∧ ∀ k, facts.get? k = (storedRecords run unmarshal cfg node).reverse.lookup k)
    ∧ (GetFacts sampleRun sampleUnmarshal sampleCfg
        (some (.dir [("get_hostname", .file []), ("get_interfaces", .file [])]))).map GoMap.entries
      = .ok [("hostname", JVal.str "node1"), ("interfaces", JVal.arr [JVal.str "eth0"])] := by
  refine ⟨⟨GoMap.make.setAll (storedRecords run unmarshal cfg node), ?_, ?_, ?_⟩, rfl⟩
  · simp [GetFacts, Walk, walkCalls_execute_collector, FailOnError, storedRecords]
  · intro k
    rw [GoMap.mem_keys_iff]
    simp only [GoMap.get?_setAll, GoMap.get?_make]
    have h := lookup_eq_some_iff_mem k (storedRecords run unmarshal cfg node).reverse
    simp only [List.mem_reverse] at h
    rw [← h]
    cases List.lookup k (storedRecords run unmarshal cfg node).reverse <;> simp
  · intro k
    simp [GoMap.get?_setAll, GoMap.get?_make]

/-- Claim C3 fails as stated. In a directory whose only collector is the sample collector
`overflow`, no collector emits a valid single-key record, since parsing its output fails,
and yet `GetFacts` returns the fact `n`. -/
theorem GetFacts_keeps_key_of_failed_parse :
    validRecords sampleRun sampleUnmarshal sampleCfg (.dir [("overflow", .file [])]) = []
      ∧ (GetFacts sampleRun sampleUnmarshal sampleCfg
          (some (.dir [("overflow", .file [])]))).map GoMap.entries
        = .ok [("n", JVal.null)] :=
  ⟨rfl, rfl⟩

/-! ## `ServeFactCollectors` -/

theorem lookup_replaceEntry_self (name : String) (node : Node) (es : List (String × Node))
    (h : ∃ x, es.lookup name = some x) : (replaceEntry name node es).lookup name = some node := by
  induction es with
  | nil => simp [List.lookup] at h
  | cons hd tl ih =>
    obtain ⟨n, c⟩ := hd
    by_cases hn : n = name
    · simp [replaceEntry, hn, List.lookup]
    · have h' : (name == n) = false := by simpa using fun e : name = n => hn e.symm
      simp only [List.lookup, h'] at h
      simp [replaceEntry, hn, List.lookup, h', ih h]

theorem lookup_replaceEntry_ne (name k : String) (node : Node) (es : List (String × Node))
    (hne : k ≠ name) : (replaceEntry name node es).lookup k = es.lookup k := by
  induction es with
  | nil => simp [replaceEntry]
  | cons hd tl ih =>
    obtain ⟨n, c⟩ := hd
    by_cases hn : n = name
    · subst hn
      have h' : (k == n) = false := by simpa using hne
      simp [replaceEntry, List.lookup, h']
    · simp only [replaceEntry, hn, if_false, List.lookup, ih]

theorem replaceEntry_same (name : String) (node : Node) (es : List (String × Node))
    (h : es.lookup name = some node) : replaceEntry name node es = es := by
  induction es with
  | nil => rfl
  | cons hd tl ih =>
    obtain ⟨n, c⟩ := hd
    by_cases hn : n = name
    · subst hn
      simp only [List.lookup, beq_self_eq_true, Option.some.injEq] at h
      simp [replaceEntry, h]
    · have h' : (name == n) = false := by simpa using fun e : name = n => hn e.symm
      simp only [List.lookup, h'] at h
      simp [replaceEntry, hn, ih h]

theorem lookup_insertEntry_self (name : String) (node : Node) (es : List (String × Node))
    (h : es.lookup name = none) : (insertEntry name node es).lookup name = some node := by
  induction es with
  | nil => simp [insertEntry, List.lookup]
  | cons hd tl ih =>
    obtain ⟨n, c⟩ := hd
    by_cases hn : name = n
    · subst hn; simp [List.lookup] at h
    · have h' : (name == n) = false := by simpa using hn
      simp only [List.lookup, h'] at h
      simp only [insertEntry]
      split
      · simp [List.lookup]
      · simp [List.lookup, h', ih h]

theorem lookup_insertEntry_ne (name k : String) (node : Node) (es : List (String × Node))
    (hne : k ≠ name) : (insertEntry name node es).lookup k = es.lookup k := by
  have h' : (k == name) = false := by simpa using hne
  induction es with
  | nil => simp [insertEntry, List.lookup, h']
  | cons hd tl ih =>
    obtain ⟨n, c⟩ := hd
    simp only [insertEntry]
    split
    · simp [List.lookup, h']
    · simp only [List.lookup, ih]

/-- What a successful `WriteFile` leaves: the file holds the data, every other name of the
directory is as before. -/
theorem WriteFile_ok (fs fs' : Option Node) (name : String) (data : Bytes)
    (h : WriteFile fs name data = .ok fs') :
    ∃ es es', fs = some (.dir es) ∧ fs' = some (.dir es')
      ∧ es'.lookup name = some (.file data)
      ∧ ∀ k, k ≠ name → es'.lookup k = es.lookup k := by
  unfold WriteFile at h
  split at h
  · rename_i es
    split at h
    · cases h
    · rename_i c hc
      cases h
      exact ⟨es, _, rfl, rfl, lookup_replaceEntry_self _ _ _ ⟨_, hc⟩,
        fun k hk => lookup_replaceEntry_ne _ _ _ _ hk⟩
    · rename_i hc
      cases h
      exact ⟨es, _, rfl, rfl, lookup_insertEntry_self _ _ _ hc,
        fun k hk => lookup_insertEntry_ne _ _ _ _ hk⟩
  · cases h

theorem resolve_child (es : List (String × Node)) (name : String) :
    resolve (.dir es) [name] = es.lookup name := by
  simp only [resolve]
  cases es.lookup name <;> simp [resolve]

/-- One successful turn of the loop of `ServeFactCollectors`. -/
theorem serveCollector_ok (Asset : String → Except Error Bytes) (digest : Bytes → String)
    (st st' : GoMap String × Option Node) (name : String)
    (h : serveCollector Asset digest st name = .ok st') :
    ∃ data, Asset ("facts/collectors/" ++ name) = .ok data
      ∧ WriteFile st.2 name data = .ok st'.2
      ∧ st'.1 = st.1.set name (digest data) := by
  unfold serveCollector at h
  split at h
  · cases h
  · rename_i data hdata
    split at h
    · cases h
    · rename_i fs' hw
      obtain ⟨es, es', _, rfl, hl, _⟩ := WriteFile_ok _ _ _ _ hw
      simp only [GetFileSHA256, Option.bind, resolve_child, hl] at h
      cases h
      exact ⟨data, hdata, hw, rfl⟩

/-- A turn of the loop on a directory that already holds the bundled bytes under the name
changes nothing on disk. -/
theorem serveCollector_fixed (Asset : String → Except Error Bytes) (digest : Bytes → String)
    (m : GoMap String) (es : List (String × Node)) (name : String) (data : Bytes)
    (ha : Asset ("facts/collectors/" ++ name) = .ok data)
    (hl : es.lookup name = some (.file data)) :
    serveCollector Asset digest (m, some (.dir es)) name
      = .ok (m.set name (digest data), some (.dir es)) := by
  simp [serveCollector, ha, WriteFile, hl, replaceEntry_same, GetFileSHA256, resolve_child]

theorem serveCollector_served (Asset : String → Except Error Bytes) (digest : Bytes → String)
    (st st' : GoMap String × Option Node) (name : String)
    (h : serveCollector Asset digest st name = .ok st') : Served Asset digest st' name := by
  obtain ⟨data, ha, hw, hm⟩ := serveCollector_ok _ _ _ _ _ h
  obtain ⟨es, es', _, h2, hl, _⟩ := WriteFile_ok _ _ _ _ hw
  exact ⟨data, es', ha, h2, hl, by rw [hm, GoMap.get?_set_self]⟩

theorem serveCollector_keeps (Asset : String → Except Error Bytes) (digest : Bytes → String)
    (st st' : GoMap String × Option Node) (name n : String)
    (h : serveCollector Asset digest st n = .ok st') (hs : Served Asset digest st name) :
    Served Asset digest st' name := by
  by_cases hn : name = n
  · subst hn; exact serveCollector_served _ _ _ _ _ h
  · obtain ⟨data, es, ha, h2, hl, hg⟩ := hs
    obtain ⟨data', _, hw, hm⟩ := serveCollector_ok _ _ _ _ _ h
    obtain ⟨es₀, es', h1, h2', _, hother⟩ := WriteFile_ok _ _ _ _ hw
    rw [h2] at h1
    cases h1
    exact ⟨data, es', ha, h2', by rw [hother name hn, hl],
      by rw [hm, GoMap.get?_set_ne _ _ _ _ hn, hg]⟩

theorem serveLoop_keeps (Asset : String → Except Error Bytes) (digest : Bytes → String)
    (order : List String) (st st' : GoMap String × Option Node) (name : String)
    (h : serveLoop Asset digest order st = .ok st') (hs : Served Asset digest st name) :
    Served Asset digest st' name := by
  induction order generalizing st with
  | nil => simp only [serveLoop, Except.ok.injEq] at h; exact h ▸ hs
  | cons n rest ih =>
    simp only [serveLoop] at h
    split at h
    · cases h
    · rename_i st₁ h₁
      exact ih st₁ h (serveCollector_keeps _ _ _ _ _ _ h₁ hs)

theorem serveLoop_served (Asset : String → Except Error Bytes) (digest : Bytes → String)
    (order : List String) (st st' : GoMap String × Option Node) (name : String)
    (h : serveLoop Asset digest order st = .ok st') (hmem : name ∈ order) :
    Served Asset digest st' name := by
  induction order generalizing st with
  | nil => cases hmem
  | cons n rest ih =>
    simp only [serveLoop] at h
    split at h
    · cases h
    · rename_i st₁ h₁
      rcases List.mem_cons.mp hmem with rfl | hr
      · exact serveLoop_keeps _ _ _ _ _ _ h (serveCollector_served _ _ _ _ _ h₁)
      · exact ih st₁ h hr

theorem keys_set_of_mem {V : Type} (m : GoMap V) (k : String) (v : V) (h : k ∈ m.keys) :
    (m.set k v).keys = m.keys := by
  simp only [GoMap.keys] at h
  simp [GoMap.keys, GoMap.set, keys_setEntries, h]

theorem serveLoop_keys (Asset : String → Except Error Bytes) (digest : Bytes → String)
    (order : List String) (st st' : GoMap String × Option Node)
    (h : serveLoop Asset digest order st = .ok st') (hsub : ∀ n ∈ order, n ∈ st.1.keys) :
    st'.1.keys = st.1.keys := by
  induction order generalizing st with
  | nil => simp only [serveLoop, Except.ok.injEq] at h; rw [h]
  | cons n rest ih =>
    simp only [serveLoop] at h
    split at h
    · cases h
    · rename_i st₁ h₁
      obtain ⟨data, _, _, hm⟩ := serveCollector_ok _ _ _ _ _ h₁
      have hk : st₁.1.keys = st.1.keys := by
        rw [hm]; exact keys_set_of_mem _ _ _ (hsub n (List.mem_cons_self _ _))
      rw [ih st₁ h (fun x hx => hk ▸ hsub x (List.mem_cons_of_mem _ hx)), hk]

/-- What a successful run of `ServeFactCollectors` leaves on disk and in the manifest. -/
theorem ServeFactCollectors_ok (Asset : String → Except Error Bytes)
    (digest : Bytes → String) (order : List String) (fs fs' : Option Node) (m : GoMap String)
    (horder : order.Perm collectorNames)
    (h : ServeFactCollectors Asset digest order fs = .ok (m, fs')) :
    m.keys = collectorNames
      ∧ ∀ name, name ∈ collectorNames →
          ∃ data, Asset ("facts/collectors/" ++ name) = .ok data
            ∧ fs'.bind (fun root => resolve root [name]) = some (.file data)
            ∧ m.get? name = some (digest data) := by
  unfold ServeFactCollectors at h
  split at h
  · cases h
  · rename_i fs₁ _
    refine ⟨?_, ?_⟩
    · have := serveLoop_keys _ _ _ _ _ h (fun n hn => by
        have := horder.mem_iff.mp hn
        simpa [GoMap.keys, GoMap.set, GoMap.make, setEntries, collectorNames, or_comm] using this)
      rw [this]
      simp [GoMap.keys, GoMap.set, GoMap.make, setEntries, collectorNames]
    · intro name hname
      obtain ⟨data, es, ha, h2, hl, hg⟩ :=
        serveLoop_served _ _ _ _ _ name h (horder.mem_iff.mpr hname)
      simp only at h2
      exact ⟨data, ha, by rw [h2]; simp [resolve_child, hl], hg⟩

/-- Claim C5. Whatever the collector directory held before and in whichever order the two names
are taken, when `ServeFactCollectors` succeeds the directory holds, under each canonical
name, a file with exactly the bytes of the asset `facts/collectors/<name>`, and the
manifest has the canonical names as its keys, each with the digest of those bytes. -/
theorem ServeFactCollectors_materializes (Asset : String → Except Error Bytes)
    (digest : Bytes → String) (order : List String) (fs fs' : Option Node) (m : GoMap String)
    (horder : order.Perm collectorNames)
    (h : ServeFactCollectors Asset digest order fs = .ok (m, fs')) :
    m.keys = collectorNames
      ∧ ∀ name, name ∈ collectorNames →
          ∃ data, Asset ("facts/collectors/" ++ name) = .ok data
            ∧ fs'.bind (fun root => resolve root [name]) = some (.file data)
            ∧ m.get? name = some (digest data) :=
  ServeFactCollectors_ok Asset digest order fs fs' m horder h

/-- From the tampered sample directory the publisher restores `get_hostname`, adds
`get_interfaces` and reports the digests of the bundled bytes. -/
theorem ServeFactCollectors_materializes_witness :
    sampleManifest.keys = collectorNames
      ∧ ∀ name, name ∈ collectorNames →
          ∃ data, sampleAsset ("facts/collectors/" ++ name) = .ok data
            ∧ repairedDir.bind (fun root => resolve root [name]) = some (.file data)
            ∧ sampleManifest.get? name = some (sampleDigest data) :=
  ServeFactCollectors_materializes sampleAsset sampleDigest ["get_hostname", "get_interfaces"]
    tamperedDir repairedDir sampleManifest (by decide) rfl

theorem lookup_eq_none_of_not_mem {V : Type} (k : String) (l : List (String × V))
    (h : k ∉ l.map Prod.fst) : l.lookup k = none := by
  cases hl : l.lookup k with
  | none => rfl
  | some v =>
    obtain ⟨v', hv⟩ := (lookup_eq_some_iff_mem k l).mp ⟨v, hl⟩
    exact absurd (List.mem_map_of_mem Prod.fst hv) h

theorem entries_eq_of_lookup {V : Type} (l l' : List (String × V))
    (hk : l.map Prod.fst = l'.map Prod.fst) (hn : (l.map Prod.fst).Nodup)
    (hv : ∀ k, l.lookup k = l'.lookup k) : l = l' := by
  induction l generalizing l' with
  | nil => cases l' with
    | nil => rfl
    | cons a t => simp at hk
  | cons a t ih =>
    cases l' with
    | nil => simp at hk
    | cons a' t' =>
      obtain ⟨k, v⟩ := a
      obtain ⟨k', v'⟩ := a'
      simp only [List.map_cons, List.cons.injEq] at hk
      obtain ⟨rfl, hkt⟩ := hk
      simp only [List.map_cons, List.nodup_cons] at hn
      have hhead := hv k
      simp only [List.lookup, beq_self_eq_true, Option.some.injEq] at hhead
      subst hhead
      congr 1
      refine ih t' hkt hn.2 (fun k₂ => ?_)
      by_cases h : k₂ = k
      · subst h
        rw [lookup_eq_none_of_not_mem _ _ hn.1, lookup_eq_none_of_not_mem _ _ (hkt ▸ hn.1)]
      · have h' : (k₂ == k) = false := by simpa using h
        have := hv k₂
        simpa [List.lookup, h'] using this

/-- Two maps with the same keys in the same places and the same values are the same. -/
theorem GoMap.eq_of_keys_get? {V : Type} (m m' : GoMap V) (hk : m.keys = m'.keys)
    (hv : ∀ k, m.get? k = m'.get? k) : m = m' :=
  GoMap.ext_entries (entries_eq_of_lookup _ _ hk m.nodup hv)

theorem get?_eq_none_of_not_mem_keys {V : Type} (m : GoMap V) (k : String) (h : k ∉ m.keys) :
    m.get? k = none :=
  lookup_eq_none_of_not_mem k m.entries h

/-- On a directory that holds the bundled bytes under every name of `order`, the loop
succeeds and leaves the directory as it is. -/
theorem serveLoop_fixed (Asset : String → Except Error Bytes) (digest : Bytes → String)
    (order : List String) (m : GoMap String) (es : List (String × Node))
    (h : ∀ n ∈ order, ∃ data, Asset ("facts/collectors/" ++ n) = .ok data
      ∧ es.lookup n = some (.file data)) :
    ∃ m', serveLoop Asset digest order (m, some (.dir es)) = .ok (m', some (.dir es)) := by
  induction order generalizing m with
  | nil => exact ⟨m, rfl⟩
  | cons n rest ih =>
    obtain ⟨data, ha, hl⟩ := h n (List.mem_cons_self _ _)
    obtain ⟨m', hm'⟩ := ih (m.set n (digest data)) (fun x hx => h x (List.mem_cons_of_mem _ hx))
    exact ⟨m', by simp only [serveLoop, serveCollector_fixed _ _ _ _ _ _ ha hl, hm']⟩

/-- Claim C6. Whatever the collector directory held before, and in whichever orders the two
runs take the names, a second run of `ServeFactCollectors` right after a successful first
one succeeds, returns the same manifest and leaves the directory exactly as the first run
left it. -/
theorem ServeFactCollectors_idempotent (Asset : String → Except Error Bytes)
    (digest : Bytes → String) (order₁ order₂ : List String) (fs fs₁ : Option Node)
    (m₁ : GoMap String)
    (h₁ : order₁.Perm collectorNames) (h₂ : order₂.Perm collectorNames)
    (h : ServeFactCollectors Asset digest order₁ fs = .ok (m₁, fs₁)) :
    ServeFactCollectors Asset digest order₂ fs₁ = .ok (m₁, fs₁) := by
  obtain ⟨hkeys₁, hserved₁⟩ := ServeFactCollectors_ok _ _ _ _ _ _ h₁ h
  obtain ⟨es, rfl⟩ : ∃ es, fs₁ = some (.dir es) := by
    unfold ServeFactCollectors at h
    split at h
    · cases h
    · obtain ⟨_, es, _, h2, _⟩ :=
        serveLoop_served _ _ _ _ _ "get_hostname" h (h₁.mem_iff.mpr (by simp [collectorNames]))
      exact ⟨es, h2⟩
  have hfix : ∀ n ∈ order₂, ∃ data, Asset ("facts/collectors/" ++ n) = .ok data
      ∧ es.lookup n = some (.file data) := by
    intro n hn
    obtain ⟨data, ha, hr, _⟩ := hserved₁ n (h₂.mem_iff.mp hn)
    exact ⟨data, ha, by simpa [resolve_child] using hr⟩
  obtain ⟨m₂, hm₂⟩ := serveLoop_fixed Asset digest order₂
    ((GoMap.make.set "get_interfaces" "").set "get_hostname" "") es hfix
  have h' : ServeFactCollectors Asset digest order₂ (some (.dir es)) = .ok (m₂, some (.dir es)) := by
    simp only [ServeFactCollectors, MkdirAll, hm₂]
  obtain ⟨hkeys₂, hserved₂⟩ := ServeFactCollectors_ok _ _ _ _ _ _ h₂ h'
  have : m₂ = m₁ := by
    refine GoMap.eq_of_keys_get? _ _ (hkeys₂.trans hkeys₁.symm) (fun k => ?_)
    by_cases hk : k ∈ collectorNames
    · obtain ⟨d₁, ha₁, _, hg₁⟩ := hserved₁ k hk
      obtain ⟨d₂, ha₂, _, hg₂⟩ := hserved₂ k hk
      rw [ha₁] at ha₂
      cases ha₂
      rw [hg₁, hg₂]
    · rw [get?_eq_none_of_not_mem_keys _ _ (hkeys₂ ▸ hk),
        get?_eq_none_of_not_mem_keys _ _ (hkeys₁ ▸ hk)]
  rw [h', this]

/-- A second run on the repaired sample directory, taking the names in the other order,
returns the same manifest and leaves the same bytes. -/
theorem ServeFactCollectors_idempotent_witness :
    ServeFactCollectors sampleAsset sampleDigest ["get_interfaces", "get_hostname"] repairedDir
      = .ok (sampleManifest, repairedDir) :=
  ServeFactCollectors_idempotent sampleAsset sampleDigest ["get_hostname", "get_interfaces"]
    ["get_interfaces", "get_hostname"] tamperedDir repairedDir sampleManifest
    (by decide) (by decide) rfl

/-! ## `GetFactCollectors` -/

theorem walkCalls_append {σ : Type} (fn : WalkFunc σ) (a b : List (Path × FileInfo)) (s s' : σ)
    (h : walkCalls fn a s = .ok (s', none)) : walkCalls fn (a ++ b) s = walkCalls fn b s' := by
  induction a generalizing s with
  | nil => simp only [walkCalls, Except.ok.injEq, Prod.mk.injEq, and_true] at h; subst h; rfl
  | cons e rest ih =>
    simp only [List.cons_append, walkCalls] at h ⊢
    split at h
    · cases h
    · cases h
    · rename_i s₁ h₁
      exact ih s₁ h

theorem resolve_append (root : Node) (p q : Path) :
    resolve root (p ++ q) = (resolve root p).bind (fun d => resolve d q) := by
  induction p generalizing root with
  | nil => simp [resolve]
  | cons n rest ih =>
    cases root with
    | file c => simp [resolve]
    | dir es =>
      simp only [List.cons_append, resolve]
      cases es.lookup n with
      | none => simp
      | some c => simp [ih]

theorem lookup_of_mem_nodup {V : Type} (l : List (String × V)) (k : String) (v : V)
    (hn : (l.map Prod.fst).Nodup) (hmem : (k, v) ∈ l) : l.lookup k = some v := by
  induction l with
  | nil => cases hmem
  | cons hd tl ih =>
    obtain ⟨k₀, v₀⟩ := hd
    simp only [List.map_cons, List.nodup_cons] at hn
    rcases List.mem_cons.mp hmem with h | h
    · cases h; simp [List.lookup]
    · have hne : k ≠ k₀ := fun e => hn.1 (e ▸ List.mem_map_of_mem Prod.fst h)
      have h' : (k == k₀) = false := by simpa using hne
      simp [List.lookup, h', ih hn.2 h]

theorem discover_collector_file (digest : Bytes → String) (fs : Option Node) (p : Path)
    (nm : String) (content : Bytes) (s : GoMap String)
    (h : fs.bind (fun root => resolve root p) = some (.file content)) :
    discover_collector digest fs p (some ⟨nm, false⟩) none s
      = .ok (s.set nm (digest content), none) := by
  simp [discover_collector, IsDir, Name, GetFileSHA256, h]

theorem discover_collector_dir (digest : Bytes → String) (fs : Option Node) (p : Path)
    (nm : String) (s : GoMap String) :
    discover_collector digest fs p (some ⟨nm, true⟩) none s = .ok (s, none) := by
  simp [discover_collector, IsDir]

theorem setAll_append {V : Type} (m : GoMap V) (a b : List (String × V)) :
    m.setAll (a ++ b) = (m.setAll a).setAll b := by
  simp [GoMap.setAll, List.foldl_append]

mutual
/-- The walk of `discover_collector` below an object of a tree with distinct names: every
regular file at any depth is hashed and assigned under its base name, in walk order. -/
theorem walkCalls_discover (digest : Bytes → String) (fs : Option Node) :
    ∀ (node : Node) (p : Path) (nm : String) (s : GoMap String),
      fs.bind (fun root => resolve root p) = some node → node.distinctNames = true →
      walkCalls (discover_collector digest fs) (walk node p nm) s
        = .ok (s.setAll ((regularFiles node nm).map (fun x => (x.1, digest x.2))), none)
  | .file content, p, nm, s, hres, _ => by
    simp [walk, walkCalls, discover_collector_file digest fs p nm content s hres, regularFiles,
      GoMap.setAll]
  | .dir es, p, nm, s, hres, hwf => by
    simp only [Node.distinctNames, Bool.and_eq_true, decide_eq_true_eq] at hwf
    simp only [walk, walkCalls, discover_collector_dir, regularFiles]
    refine walkCalls_discoverIn digest fs es p s (fun n c hmem => ?_) hwf.2
    cases hfs : fs with
    | none => simp [hfs] at hres
    | some root =>
      simp only [hfs, Option.bind] at hres ⊢
      rw [resolve_append, hres]
      simp [resolve, lookup_of_mem_nodup es n c hwf.1 hmem]
/-- The same for the entries of a directory at path `p`. -/
theorem walkCalls_discoverIn (digest : Bytes → String) (fs : Option Node) :
    ∀ (es : List (String × Node)) (p : Path) (s : GoMap String),
      (∀ n c, (n, c) ∈ es → fs.bind (fun root => resolve root (p ++ [n])) = some c) →
      distinctNamesIn es = true →
      walkCalls (discover_collector digest fs) (walkEntries es p) s
        = .ok (s.setAll ((regularFilesIn es).map (fun x => (x.1, digest x.2))), none)
  | [], p, s, _, _ => by simp [walkEntries, walkCalls, regularFilesIn, GoMap.setAll]
  | (n, c) :: rest, p, s, h, hwf => by
    simp only [distinctNamesIn, Bool.and_eq_true] at hwf
    have h₁ := walkCalls_discover digest fs c (p ++ [n]) n s
      (h n c (List.mem_cons_self _ _)) hwf.1
    have h₂ := walkCalls_discoverIn digest fs rest p
      (s.setAll ((regularFiles c n).map (fun x => (x.1, digest x.2))))
      (fun n' c' hmem => h n' c' (List.mem_cons_of_mem _ hmem)) hwf.2
    simp only [walkEntries, regularFilesIn, List.map_append, setAll_append]
    rw [walkCalls_append _ _ _ _ _ h₁, h₂]
end

/-- The manifest of a collector directory whose tree has distinct names. -/
theorem GetFactCollectors_tree (digest : Bytes → String) (cfg : Config)
    (es : List (String × Node)) (hwf : (Node.dir es).distinctNames = true) :
    GetFactCollectors digest cfg (some (.dir es))
      = .ok (GoMap.make.setAll ((regularFilesIn es).map (fun x => (x.1, digest x.2))),
          some (.dir es)) := by
  have h := walkCalls_discover digest (some (.dir es)) (.dir es) [] (Base cfg.CollectorDir)
    GoMap.make (by simp [resolve]) hwf
  simp only [regularFiles] at h
  simp [GetFactCollectors, MkdirAll, Walk, h, FailOnError]

theorem lookup_map_snd {V W : Type} (g : V → W) (l : List (String × V)) (k : String) :
    (l.map (fun x => (x.1, g x.2))).lookup k = (l.lookup k).map g := by
  induction l with
  | nil => rfl
  | cons hd tl ih =>
    obtain ⟨k₀, v₀⟩ := hd
    by_cases h : k = k₀
    · subst h; simp [List.lookup]
    · have h' : (k == k₀) = false := by simpa using h
      simp [List.lookup, h', ih]

/-- Claim C4, as the code has it. `discover_collector` returns nil for a directory, so the walk
goes into it: in a tree whose directories list no name twice, `GetFactCollectors` adds no
entry for a directory as such, and adds one for every regular file at any depth, under its
base name with the digest of its bytes, a later file of the same base name replacing an
earlier one. A name is a key exactly when some regular file of the tree has that base
name. -/
theorem GetFactCollectors_walks_subdirectories (digest : Bytes → String) (cfg : Config)
    (es : List (String × Node)) (hwf : (Node.dir es).distinctNames = true) :
    ∃ m, GetFactCollectors digest cfg (some (.dir es)) = .ok (m, some (.dir es))
      ∧ (∀ k, k ∈ m.keys ↔ ∃ content, (k, content) ∈ regularFilesIn es)
      ∧ ∀ k, m.get? k = ((regularFilesIn es).reverse.lookup k).map digest := by
  refine ⟨_, GetFactCollectors_tree digest cfg es hwf, ?_, ?_⟩
  · intro k
    rw [GoMap.mem_keys_iff]
    have h := lookup_eq_some_iff_mem k (regularFilesIn es).reverse
    simp only [List.mem_reverse] at h
    rw [← h]
    simp only [GoMap.get?_setAll, GoMap.get?_make, ← List.map_reverse, lookup_map_snd]
    cases List.lookup k (regularFilesIn es).reverse <;> simp
  · intro k
    simp only [GoMap.get?_setAll, GoMap.get?_make, ← List.map_reverse, lookup_map_snd]
    cases List.lookup k (regularFilesIn es).reverse <;> simp

/-- In the sample directory with the subdirectory `tmp`, the manifest has the keys
`get_hostname`, `scratch` and `tmp`, the last two from files inside `tmp`. -/
theorem GetFactCollectors_walks_subdirectories_witness :
    ∃ m, GetFactCollectors sampleDigest sampleCfg nestedDir = .ok (m, nestedDir)
      ∧ (∀ k, k ∈ m.keys ↔ ∃ content, (k, content) ∈
          [("get_hostname", bytesOf "h"), ("scratch", bytesOf "s"), ("tmp", bytesOf "t")])
      ∧ ∀ k, m.get? k =
          (([("get_hostname", bytesOf "h"), ("scratch", bytesOf "s"),
            ("tmp", bytesOf "t")] : List (String × Bytes)).reverse.lookup k).map sampleDigest :=
  GetFactCollectors_walks_subdirectories sampleDigest sampleCfg
    [("get_hostname", .file (bytesOf "h")),
      ("tmp", .dir [("scratch", .file (bytesOf "s")), ("tmp", .file (bytesOf "t"))])]
    (by decide)

/-- Claim C4 fails as stated. In the sample directory with the subdirectory `tmp`, the files
`tmp/scratch` and `tmp/tmp` are hashed and entered, so that `scratch` and the
subdirectory name `tmp` are keys of the manifest. -/
theorem GetFactCollectors_enters_subdirectory :
    (GetFactCollectors sampleDigest sampleCfg nestedDir).map (fun r => r.1.entries)
      = .ok [("get_hostname", sampleDigest (bytesOf "h")),
          ("scratch", sampleDigest (bytesOf "s")), ("tmp", sampleDigest (bytesOf "t"))] :=
  rfl

theorem setEntries_of_not_mem {V : Type} (k : String) (v : V) (l : List (String × V))
    (h : k ∉ l.map Prod.fst) : setEntries k v l = l ++ [(k, v)] := by
  induction l with
  | nil => rfl
  | cons hd tl ih =>
    obtain ⟨k₀, v₀⟩ := hd
    simp only [List.map_cons, List.mem_cons, not_or] at h
    have h' : ¬ k₀ = k := fun e => h.1 e.symm
    simp [setEntries, h', ih h.2]

theorem setAll_entries_of_nodup {V : Type} (m : GoMap V) (l : List (String × V))
    (h : (m.keys ++ l.map Prod.fst).Nodup) : (m.setAll l).entries = m.entries ++ l := by
  induction l generalizing m with
  | nil => simp [GoMap.setAll]
  | cons hd tl ih =>
    obtain ⟨k, v⟩ := hd
    have hk : k ∉ m.entries.map Prod.fst := by
      intro hmem
      rw [List.nodup_append] at h
      exact h.2.2 hmem (by simp)
    have hset : (m.set k v).entries = m.entries ++ [(k, v)] := setEntries_of_not_mem k v _ hk
    have hstep : m.setAll ((k, v) :: tl) = (m.set k v).setAll tl := rfl
    rw [hstep, ih (m.set k v), hset, List.append_assoc]
    · rfl
    · simp only [GoMap.keys, hset, List.map_append, List.map_cons, List.map_nil,
        List.append_assoc, List.singleton_append]
      simpa [GoMap.keys] using h

theorem flat_distinctNamesIn (es : List (String × Node)) (h : ∀ e ∈ es, e.2.isFile = true) :
    distinctNamesIn es = true := by
  induction es with
  | nil => rfl
  | cons hd tl ih =>
    obtain ⟨n, c⟩ := hd
    have hc := h (n, c) (List.mem_cons_self _ _)
    cases c with
    | dir _ => simp [Node.isFile] at hc
    | file content =>
      simp [distinctNamesIn, Node.distinctNames,
        ih (fun e he => h e (List.mem_cons_of_mem _ he))]

theorem flat_regularFilesIn (es : List (String × Node)) (h : ∀ e ∈ es, e.2.isFile = true) :
    (regularFilesIn es).map Prod.fst = es.map Prod.fst
      ∧ ∀ name content, (name, content) ∈ regularFilesIn es ↔ (name, Node.file content) ∈ es := by
  induction es with
  | nil => simp [regularFilesIn]
  | cons hd tl ih =>
    obtain ⟨n, c⟩ := hd
    have hc := h (n, c) (List.mem_cons_self _ _)
    obtain ⟨ih₁, ih₂⟩ := ih (fun e he => h e (List.mem_cons_of_mem _ he))
    cases c with
    | dir _ => simp [Node.isFile] at hc
    | file content =>
      refine ⟨by simp [regularFilesIn, regularFiles, ih₁], fun name content' => ?_⟩
      simp [regularFilesIn, regularFiles, ih₂]

/-- The manifest of a directory in the flat layout, key by key. -/
theorem flat_manifest_of_walk (digest : Bytes → String) (cfg : Config)
    (es : List (String × Node)) (hflat : flatLayout es) :
    ∃ m, GetFactCollectors digest cfg (some (.dir es)) = .ok (m, some (.dir es))
      ∧ m.keys = es.map Prod.fst
      ∧ ∀ name content, (name, Node.file content) ∈ es → m.get? name = some (digest content) := by
  obtain ⟨hnodup, hfiles⟩ := hflat
  obtain ⟨hnames, hmem⟩ := flat_regularFilesIn es hfiles
  have hwf : (Node.dir es).distinctNames = true := by
    simp [Node.distinctNames, hnodup, flat_distinctNamesIn es hfiles]
  have hentries : (GoMap.make.setAll
      ((regularFilesIn es).map (fun x => (x.1, digest x.2)))).entries
      = (regularFilesIn es).map (fun x => (x.1, digest x.2)) := by
    rw [setAll_entries_of_nodup]
    · rfl
    · simpa [GoMap.keys, GoMap.make, List.map_map, Function.comp_def, hnames] using hnodup
  refine ⟨_, GetFactCollectors_tree digest cfg es hwf, ?_, ?_⟩
  · simp only [GoMap.keys, hentries, List.map_map, Function.comp_def]
    exact hnames
  · intro name content hin
    simp only [GoMap.get?, hentries]
    apply lookup_of_mem_nodup
    · simpa [List.map_map, Function.comp_def, hnames] using hnodup
    · exact List.mem_map.mpr ⟨(name, content), (hmem name content).mpr hin, rfl⟩

/-- Claim C8. For a collector directory in the flat layout (only files, each name once),
`GetFactCollectors` returns a manifest with one entry per file: a name is a key exactly when
it is the name of a file of the directory, there are as many keys as files, and each key
has the digest of the bytes that file holds. -/
theorem GetFactCollectors_flat (digest : Bytes → String) (cfg : Config)
    (es : List (String × Node)) (hflat : flatLayout es) :
    ∃ m, GetFactCollectors digest cfg (some (.dir es)) = .ok (m, some (.dir es))
      ∧ (∀ k, k ∈ m.keys ↔ k ∈ es.map Prod.fst)
      ∧ m.len = es.length
      ∧ ∀ name content, (name, Node.file content) ∈ es → m.get? name = some (digest content) := by
  obtain ⟨m, hm, hkeys, hval⟩ := flat_manifest_of_walk digest cfg es hflat
  refine ⟨m, hm, fun k => by rw [hkeys], ?_, hval⟩
  have : m.keys.length = (es.map Prod.fst).length := by rw [hkeys]
  simpa [GoMap.keys, GoMap.len] using this

/-- The repaired sample directory has three files, and the manifest has their three names
with the digests of their bytes. -/
theorem GetFactCollectors_flat_witness :
    ∃ m, GetFactCollectors sampleDigest sampleCfg repairedDir = .ok (m, repairedDir)
      ∧ (∀ k, k ∈ m.keys ↔ k ∈ ["get_hostname", "get_interfaces", "zz_extra"])
      ∧ m.len = 3
      ∧ ∀ name content, (name, Node.file content) ∈
          [("get_hostname", Node.file (bytesOf "#!/bin/sh hostname")),
            ("get_interfaces", Node.file (bytesOf "#!/bin/sh ip link")),
            ("zz_extra", Node.file (bytesOf "x"))] → m.get? name = some (sampleDigest content) :=
  GetFactCollectors_flat sampleDigest sampleCfg
    [("get_hostname", .file (bytesOf "#!/bin/sh hostname")),
      ("get_interfaces", .file (bytesOf "#!/bin/sh ip link")), ("zz_extra", .file (bytesOf "x"))]
    ⟨by decide, by simp [Node.isFile]⟩

/-! ## The publisher's manifest and the inventory of the same directory -/

theorem mem_of_lookup_eq_some {V : Type} (l : List (String × V)) (k : String) (v : V)
    (h : l.lookup k = some v) : (k, v) ∈ l := by
  induction l with
  | nil => simp [List.lookup] at h
  | cons hd tl ih =>
    obtain ⟨k₀, v₀⟩ := hd
    by_cases hk : k = k₀
    · subst hk
      simp only [List.lookup, beq_self_eq_true, Option.some.injEq] at h
      subst h
      exact List.mem_cons_self _ _
    · have h' : (k == k₀) = false := by simpa using hk
      simp only [List.lookup, h'] at h
      exact List.mem_cons_of_mem _ (ih h)

theorem names_replaceEntry (name : String) (node : Node) (es : List (String × Node)) :
    (replaceEntry name node es).map Prod.fst = es.map Prod.fst := by
  induction es with
  | nil => rfl
  | cons hd tl ih =>
    obtain ⟨n, c⟩ := hd
    by_cases hn : n = name
    · simp [replaceEntry, hn]
    · simp [replaceEntry, hn, ih]

theorem mem_replaceEntry (name : String) (node : Node) (es : List (String × Node))
    (e : String × Node) (h : e ∈ replaceEntry name node es) : e = (name, node) ∨ e ∈ es := by
  induction es with
  | nil => simp [replaceEntry] at h
  | cons hd tl ih =>
    obtain ⟨n, c⟩ := hd
    by_cases hn : n = name
    · simp only [replaceEntry, hn, if_true, List.mem_cons] at h
      rcases h with h | h
      · exact Or.inl h
      · exact Or.inr (List.mem_cons_of_mem _ h)
    · simp only [replaceEntry, hn, if_false, List.mem_cons] at h
      rcases h with h | h
      · exact Or.inr (h ▸ List.mem_cons_self _ _)
      · exact (ih h).imp id (List.mem_cons_of_mem _)

theorem perm_insertEntry (name : String) (node : Node) (es : List (String × Node)) :
    (insertEntry name node es).Perm ((name, node) :: es) := by
  induction es with
  | nil => exact List.Perm.refl _
  | cons hd tl ih =>
    obtain ⟨n, c⟩ := hd
    simp only [insertEntry]
    split
    · exact List.Perm.refl _
    · exact (List.Perm.cons _ ih).trans (List.Perm.swap _ _ _)

/-- A successful `WriteFile` keeps a directory in the flat layout. -/
theorem WriteFile_flat (es : List (String × Node)) (fs' : Option Node) (name : String)
    (data : Bytes) (h : WriteFile (some (.dir es)) name data = .ok fs') (hflat : flatLayout es) :
    ∃ es', fs' = some (.dir es') ∧ flatLayout es' := by
  obtain ⟨hnodup, hfiles⟩ := hflat
  simp only [WriteFile] at h
  split at h
  · cases h
  · cases h
    refine ⟨_, rfl, by rw [names_replaceEntry]; exact hnodup, fun e he => ?_⟩
    rcases mem_replaceEntry _ _ _ _ he with rfl | h'
    · rfl
    · exact hfiles e h'
  · rename_i hnone
    cases h
    have hperm := perm_insertEntry name (.file data) es
    refine ⟨_, rfl, ?_, fun e he => ?_⟩
    · rw [(hperm.map Prod.fst).nodup_iff, List.map_cons, List.nodup_cons]
      refine ⟨fun hmem => ?_, hnodup⟩
      obtain ⟨e, he, rfl⟩ := List.mem_map.mp hmem
      obtain ⟨v, hv⟩ := (lookup_eq_some_iff_mem e.1 es).mpr ⟨e.2, he⟩
      rw [hnone] at hv
      cases hv
    · rcases List.mem_cons.mp (hperm.mem_iff.mp he) with rfl | h'
      · rfl
      · exact hfiles e h'

/-- A successful loop of `ServeFactCollectors` keeps the directory in the flat layout and
leaves every name it does not write as it was. -/
theorem serveLoop_flat (Asset : String → Except Error Bytes) (digest : Bytes → String)
    (order : List String) (m m' : GoMap String) (es : List (String × Node)) (fs' : Option Node)
    (h : serveLoop Asset digest order (m, some (.dir es)) = .ok (m', fs'))
    (hflat : flatLayout es) :
    ∃ es', fs' = some (.dir es') ∧ flatLayout es'
      ∧ ∀ k, k ∉ order → es'.lookup k = es.lookup k := by
  induction order generalizing m es with
  | nil =>
    simp only [serveLoop, Except.ok.injEq, Prod.mk.injEq] at h
    exact ⟨es, h.2.symm, hflat, fun _ _ => rfl⟩
  | cons n rest ih =>
    simp only [serveLoop] at h
    split at h
    · cases h
    · rename_i st₁ h₁
      obtain ⟨data, _, hw, _⟩ := serveCollector_ok _ _ _ _ _ h₁
      obtain ⟨es₁, hes₁, hflat₁⟩ := WriteFile_flat es _ n data hw hflat
      obtain ⟨es₀, es₁', h0, h1, _, hother⟩ := WriteFile_ok _ _ _ _ hw
      cases h0
      rw [hes₁] at h1
      cases h1
      obtain ⟨m₁, fs₁⟩ := st₁
      simp only at hes₁
      subst hes₁
      obtain ⟨es', hes', hflat', hrest⟩ := ih m₁ es₁ h hflat₁
      refine ⟨es', hes', hflat', fun k hk => ?_⟩
      simp only [List.mem_cons, not_or] at hk
      rw [hrest k hk.2, hother k hk.1]

/-- Claim C9. From a collector directory that is absent or holds only files, when
`ServeFactCollectors` succeeds, `GetFactCollectors` on the directory it leaves succeeds too,
and every entry of the publisher's manifest is in the inventory with the same digest; when
the directory was absent or empty, the two manifests hold the same value, or none, under
every name. -/
theorem inventory_contains_published (Asset : String → Except Error Bytes)
    (digest : Bytes → String) (cfg : Config) (order : List String) (fs fs' : Option Node)
    (m : GoMap String)
    (horder : order.Perm collectorNames)
    (hprior : ∀ es, fs = some (.dir es) → flatLayout es)
    (h : ServeFactCollectors Asset digest order fs = .ok (m, fs')) :
    ∃ inv, GetFactCollectors digest cfg fs' = .ok (inv, fs')
      ∧ (∀ name d, m.get? name = some d → inv.get? name = some d)
      ∧ ((fs = none ∨ fs = some (.dir [])) → ∀ k, inv.get? k = m.get? k) := by
  obtain ⟨hkeys, hserved⟩ := ServeFactCollectors_ok _ _ _ _ _ _ horder h
  obtain ⟨es₁, hmk, hflat₁, hempty⟩ : ∃ es₁, MkdirAll fs = .ok (some (.dir es₁)) ∧ flatLayout es₁
      ∧ ((fs = none ∨ fs = some (.dir [])) → es₁ = []) := by
    cases fs with
    | none => exact ⟨[], rfl, ⟨List.nodup_nil, fun _ he => by cases he⟩, fun _ => rfl⟩
    | some node =>
      cases node with
      | file c => simp [ServeFactCollectors, MkdirAll] at h
      | dir es => exact ⟨es, rfl, hprior es rfl, fun h' => by simpa using h'⟩
  simp only [ServeFactCollectors, hmk] at h
  obtain ⟨es', rfl, hflat', hother⟩ := serveLoop_flat _ _ _ _ _ _ _ h hflat₁
  obtain ⟨inv, hinv, hinvkeys, hinvval⟩ := flat_manifest_of_walk digest cfg es' hflat'
  have hname : ∀ name, name ∈ collectorNames → inv.get? name = m.get? name := by
    intro name hn
    obtain ⟨data, _, hres, hg⟩ := hserved name hn
    have hl : es'.lookup name = some (.file data) := by simpa [resolve_child] using hres
    rw [hg, hinvval name data (mem_of_lookup_eq_some _ _ _ hl)]
  refine ⟨inv, hinv, fun name d hd => ?_, fun hfs k => ?_⟩
  · have hn : name ∈ collectorNames := by
      rw [← hkeys, GoMap.mem_keys_iff]; exact ⟨d, hd⟩
    rw [hname name hn, hd]
  · by_cases hk : k ∈ collectorNames
    · exact hname k hk
    · have hko : k ∉ order := fun hmem => hk (horder.mem_iff.mp hmem)
      have hl : es'.lookup k = none := by rw [hother k hko, hempty hfs]; rfl
      have hnot : k ∉ inv.keys := by
        rw [hinvkeys]
        intro hmem
        obtain ⟨e, he, rfl⟩ := List.mem_map.mp hmem
        obtain ⟨v, hv⟩ := (lookup_eq_some_iff_mem e.1 es').mpr ⟨e.2, he⟩
        rw [hl] at hv
        cases hv
      rw [get?_eq_none_of_not_mem_keys _ _ hnot,
        get?_eq_none_of_not_mem_keys _ _ (hkeys ▸ hk)]

/-- After the publisher has repaired the tampered sample directory, the inventory of the
directory holds both entries of the publisher's manifest. -/
theorem inventory_contains_published_witness :
    ∃ inv, GetFactCollectors sampleDigest sampleCfg repairedDir = .ok (inv, repairedDir)
      ∧ (∀ name d, sampleManifest.get? name = some d → inv.get? name = some d)
      ∧ ((tamperedDir = none ∨ tamperedDir = some (.dir [])) →
          ∀ k, inv.get? k = sampleManifest.get? k) :=
  inventory_contains_published sampleAsset sampleDigest sampleCfg
    ["get_hostname", "get_interfaces"] tamperedDir repairedDir sampleManifest (by decide)
    (fun es hes => by
      simp only [tamperedDir, Option.some.injEq, Node.dir.injEq] at hes
      subst hes
      exact ⟨by decide, by simp [Node.isFile]⟩)
    rfl

end Todd
